import Mathlib

/-!
Verification of the `pathbuf` crate: the `SinglePathComponent` validator and
the `pathbuf_safe!` safe-join macro (default and trusted-first `allow` modes).

Paths are modelled as lists of characters (the contents of a `PathBuf` on a
POSIX-style system, where `/` is the separator and a leading `/` denotes the
root).  `Component`, `components`, and `push` embed the behaviour of Rust's
`std::path` on Unix: `Path::components` splits at separators, drops empty
pieces and interior `.` pieces, emits a leading `RootDir` for rooted paths and
a leading `CurDir` when the path starts with `.` followed by a separator or
nothing; `PathBuf::push` replaces the buffer when the pushed path is rooted
and otherwise appends, inserting a separator when one is needed.
-/

namespace Pathbuf

/-- One component of a path, as produced by Rust's `Path::components` on a
POSIX-style system (there are no drive or UNC components there). -/
inductive Component where
  | rootDir : Component
  | curDir : Component
  | parentDir : Component
  | normal : List Char → Component
deriving DecidableEq, Repr

/-- Splits a character list at every `/`, keeping empty pieces, exactly like
splitting a byte string at separator bytes.  The result is never empty. -/
def splitSep : List Char → List (List Char)
  | [] => [[]]
  | c :: rest =>
    if c = '/' then [] :: splitSep rest
    else
      match splitSep rest with
      | [] => [[c]]
      | h :: t => (c :: h) :: t

/-- Components contributed by one separated piece: empty pieces and `.` pieces
are dropped, `..` is a parent reference, anything else is a normal name. -/
def pieceComps (p : List Char) : List Component :=
  if p = [] ∨ p = ['.'] then []
  else if p = ['.', '.'] then [Component.parentDir]
  else [Component.normal p]

/-- Components contributed by a list of separated pieces, in order. -/
def piecesToComps : List (List Char) → List Component
  | [] => []
  | p :: rest => pieceComps p ++ piecesToComps rest

/-- A POSIX path has a root exactly when it starts with a separator. -/
def hasRoot (s : List Char) : Bool := s.head? == some '/'

/-- Rust's `Components::include_cur_dir`: a leading `CurDir` component is
emitted when the (rootless) path is `.` or starts with `./`. -/
def includeCurDir (s : List Char) : Bool :=
  match s with
  | [] => false
  | [c] => c == '.'
  | c :: d :: _ => c == '.' && d == '/'

/-- The component decomposition of a path, embedding `Path::components` on a
POSIX-style system. -/
def components (s : List Char) : List Component :=
  (if hasRoot s then [Component.rootDir] else []) ++
  (if includeCurDir s then [Component.curDir] else []) ++
  piecesToComps (splitSep s)

/-- Rust's `PathBuf::push` on Unix: a rooted argument replaces the buffer;
otherwise the argument is appended, preceded by a separator when the buffer is
non-empty and does not already end with one. -/
def push (self p : List Char) : List Char :=
  if hasRoot p then p
  else if self ≠ [] ∧ self.getLast? ≠ some '/' then self ++ '/' :: p
  else self ++ p

/-- A safe wrapper for a path with only a single component
(`pub struct SinglePathComponent { path: PathBuf }`). -/
structure SinglePathComponent where
  path : List Char
deriving DecidableEq, Repr

/-- The private validity check: decomposing the wrapped path must yield
exactly one component, and that component must be `Normal`. -/
def SinglePathComponent.is_valid (c : SinglePathComponent) : Bool :=
  match components c.path with
  | [Component.normal _] => true
  | _ => false

/-- The validating constructor `SinglePathComponent::new`: wraps the input and
returns it only when `is_valid` holds. -/
def SinglePathComponent.new (s : List Char) : Option SinglePathComponent :=
  let component : SinglePathComponent := ⟨s⟩
  if component.is_valid then some component else none

/-- The `push_component` method of `impl PushPathComponent for PathBuf`. -/
def pushComponent (buf : List Char) (component : SinglePathComponent) : List Char :=
  push buf component.path

/-- One iteration of the `pathbuf_safe!` expansion: validate the part, then
push it onto the accumulator, short-circuiting through `Option`. -/
def safeStep (temp : Option (List Char)) (part : List Char) : Option (List Char) :=
  temp.bind fun tmp_path =>
    (SinglePathComponent.new part).map fun component => pushComponent tmp_path component

/-- The default mode of `pathbuf_safe!`: start from an empty buffer and fold
`safeStep` over the parts in order. -/
def pathbuf_safe (parts : List (List Char)) : Option (List Char) :=
  parts.foldl safeStep (some [])

/-- The trusted-first `allow` mode of `pathbuf_safe!`: the first part is
pushed without validation, every later part goes through `safeStep`. -/
def pathbuf_safe_allow (first : List Char) (parts : List (List Char)) : Option (List Char) :=
  parts.foldl safeStep (some (push [] first))

/-- The text of the message `with_sanitise` halts with when the sanitiser
produced an invalid path (modulo quoting of the embedded path). -/
def sanitiseFaultMsg (component : List Char) : List Char :=
  "Expected a sanitised path of the original path ".toList ++ component

/-- `SinglePathComponent::with_sanitise`, with the external sanitiser crate
abstracted as the function argument `san`.  The Rust method either returns a
valid component or panics; the panic is modelled as `Except.error` carrying
the panic message, so an absent result is not even expressible. -/
def with_sanitise (san : List Char → List Char) (component : List Char) :
    Except (List Char) SinglePathComponent :=
  match SinglePathComponent.new (san component) with
  | some c => Except.ok c
  | none => Except.error (sanitiseFaultMsg component)

/-! ### Helper lemmas -/

theorem splitSep_ne_nil (s : List Char) : splitSep s ≠ [] := by
  induction s with
  | nil => simp [splitSep]
  | cons c rest ih =>
    simp only [splitSep]
    split
    · simp
    · split
      · simp
      · simp

theorem splitSep_append_sep (a b : List Char) :
    splitSep (a ++ '/' :: b) = splitSep a ++ splitSep b := by
  induction a with
  | nil => simp [splitSep]
  | cons c a' ih =>
    by_cases hc : c = '/'
    · subst hc
      simp [splitSep, ih]
    · rcases h : splitSep a' with _ | ⟨h1, t1⟩
      · exact absurd h (splitSep_ne_nil a')
      · simp [splitSep, hc, ih, h]

theorem piecesToComps_append (l1 l2 : List (List Char)) :
    piecesToComps (l1 ++ l2) = piecesToComps l1 ++ piecesToComps l2 := by
  induction l1 with
  | nil => rfl
  | cons p l ih => simp [piecesToComps, ih]

theorem components_nil : components [] = [] := by decide

/-- Unpacking `SinglePathComponent.is_valid`: it holds exactly when the
decomposition is a single normal component. -/
theorem is_valid_iff (c : SinglePathComponent) :
    c.is_valid = true ↔ ∃ x, components c.path = [Component.normal x] := by
  unfold SinglePathComponent.is_valid
  rcases h : components c.path with _ | ⟨head, tail⟩
  · simp
  · cases head <;> cases tail <;> simp

/-- Unpacking a successful `SinglePathComponent::new`. -/
theorem new_some_elim {s : List Char} {c : SinglePathComponent}
    (h : SinglePathComponent.new s = some c) :
    c = ⟨s⟩ ∧ ∃ x, components s = [Component.normal x] := by
  unfold SinglePathComponent.new at h
  by_cases hv : SinglePathComponent.is_valid ⟨s⟩ = true
  · refine ⟨?_, (is_valid_iff ⟨s⟩).mp hv⟩
    simp only [hv, if_true] at h
    exact (Option.some.injEq _ _ ▸ h).symm
  · simp [hv] at h

/-- A valid single component yields `some` of the wrapped value. -/
theorem new_eq_some_of_valid {s : List Char} {x : List Char}
    (h : components s = [Component.normal x]) :
    SinglePathComponent.new s = some ⟨s⟩ := by
  unfold SinglePathComponent.new
  have hv : SinglePathComponent.is_valid ⟨s⟩ = true := (is_valid_iff ⟨s⟩).mpr ⟨x, h⟩
  simp [hv]

/-- A failed `SinglePathComponent::new` means the decomposition is not a
single normal component. -/
theorem new_eq_none_iff (s : List Char) :
    SinglePathComponent.new s = none ↔ ∀ x, components s ≠ [Component.normal x] := by
  unfold SinglePathComponent.new
  by_cases hv : SinglePathComponent.is_valid ⟨s⟩ = true
  · obtain ⟨x, hx⟩ := (is_valid_iff ⟨s⟩).mp hv
    simp only [hv, if_true]
    constructor
    · intro h; exact absurd h (by simp)
    · intro h; exact absurd hx (h x)
  · simp only [Bool.not_eq_true] at hv
    simp only [hv, Bool.false_eq_true, if_false, true_iff]
    intro x hx
    exact absurd ((is_valid_iff ⟨s⟩).mpr ⟨x, hx⟩) (by simp [hv])

/-- A single-normal-component path has no root, no leading `CurDir`, and its
pieces give exactly that component. -/
theorem components_single_normal {p : List Char} {x : List Char}
    (hp : components p = [Component.normal x]) :
    hasRoot p = false ∧ includeCurDir p = false ∧
      piecesToComps (splitSep p) = [Component.normal x] := by
  unfold components at hp
  by_cases h1 : hasRoot p
  · simp [h1] at hp
  · by_cases h2 : includeCurDir p
    · simp [h1, h2] at hp
    · simp only [h1, Bool.false_eq_true, if_false, h2, List.nil_append] at hp
      exact ⟨by simp [h1], by simp [h2], hp⟩

theorem eq_append_getLast {l : List Char} {y : Char} (h : l.getLast? = some y) :
    ∃ q, l = q ++ [y] := by
  induction l with
  | nil => simp at h
  | cons a l ih =>
    cases l with
    | nil =>
      simp [List.getLast?] at h
      exact ⟨[], by simp [h]⟩
    | cons b l' =>
      rw [List.getLast?_cons_cons] at h
      obtain ⟨q, hq⟩ := ih h
      exact ⟨a :: q, by simp [hq]⟩

/-- Appending a separator and more text after `q` decomposes as the components
of `q` with a trailing separator followed by the pieces of the rest. -/
theorem components_append_sep (q p : List Char) :
    components (q ++ '/' :: p) = components (q ++ ['/']) ++ piecesToComps (splitSep p) := by
  have hsq : splitSep (q ++ '/' :: p) = splitSep q ++ splitSep p := splitSep_append_sep q p
  have hsq2 : splitSep (q ++ ['/']) = splitSep q ++ [[]] := by
    simpa [splitSep] using splitSep_append_sep q []
  have hr : hasRoot (q ++ '/' :: p) = hasRoot (q ++ ['/']) := by
    cases q <;> simp [hasRoot]
  have hc : includeCurDir (q ++ '/' :: p) = includeCurDir (q ++ ['/']) := by
    rcases q with _ | ⟨a, _ | ⟨b, q'⟩⟩
    · rcases p with _ | ⟨d, p'⟩
      · rfl
      · simp [includeCurDir, show ('/' == '.') = false from by decide]
    · rfl
    · rfl
  unfold components
  rw [hsq, hsq2, piecesToComps_append, piecesToComps_append, hr, hc]
  simp [piecesToComps, pieceComps]

/-- A trailing separator does not change the components of a non-empty path. -/
theorem components_append_slash (a : Char) (l : List Char) :
    components ((a :: l) ++ ['/']) = components (a :: l) := by
  have hr : hasRoot ((a :: l) ++ ['/']) = hasRoot (a :: l) := by simp [hasRoot]
  have hc : includeCurDir ((a :: l) ++ ['/']) = includeCurDir (a :: l) := by
    rcases l with _ | ⟨b, l'⟩
    · simp [includeCurDir, show ('/' == '/') = true from by decide]
    · rfl
  have hs : splitSep ((a :: l) ++ ['/']) = splitSep (a :: l) ++ [[]] := by
    simpa [splitSep] using splitSep_append_sep (a :: l) []
  unfold components
  rw [hr, hc, hs, piecesToComps_append]
  simp [piecesToComps, pieceComps]

/-- Pushing a valid single component appends exactly that component to the
decomposition, whatever the accumulator holds. -/
theorem components_push {p x : List Char} (acc : List Char)
    (hp : components p = [Component.normal x]) :
    components (push acc p) = components acc ++ components p := by
  obtain ⟨hroot, hcur, hpieces⟩ := components_single_normal hp
  have hcomp_p : components p = piecesToComps (splitSep p) := by
    simp [components, hroot, hcur]
  unfold push
  rw [hroot]
  simp only [Bool.false_eq_true, if_false]
  rcases acc with _ | ⟨a, acc'⟩
  · simp [components_nil]
  · by_cases hlast : (a :: acc').getLast? = some '/'
    · rw [if_neg (by simp [hlast])]
      obtain ⟨q, hq⟩ := eq_append_getLast hlast
      rw [hq]
      have hassoc : (q ++ ['/']) ++ p = q ++ '/' :: p := by simp
      rw [hassoc, components_append_sep, hcomp_p]
    · rw [if_pos ⟨by simp, hlast⟩, components_append_sep, components_append_slash, hcomp_p]

/-- Pushing a rootless path onto a rootless buffer keeps the buffer rootless. -/
theorem hasRoot_push {p : List Char} (acc : List Char) (h1 : hasRoot acc = false)
    (h2 : hasRoot p = false) : hasRoot (push acc p) = false := by
  unfold push
  rw [h2]
  simp only [Bool.false_eq_true, if_false]
  rcases acc with _ | ⟨a, acc'⟩
  · simpa using h2
  · split
    · simpa [hasRoot] using h1
    · simpa [hasRoot] using h1

theorem foldl_safeStep_none (l : List (List Char)) :
    List.foldl safeStep none l = none := by
  induction l with
  | nil => rfl
  | cons p l ih => simpa [safeStep] using ih

theorem safeStep_none_of_invalid (t : Option (List Char)) {bad : List Char}
    (h : SinglePathComponent.new bad = none) : safeStep t bad = none := by
  cases t <;> simp [safeStep, h]

/-- Once an invalid part is reached, the whole fold is `none`, whatever came
before or comes after. -/
theorem foldl_safeStep_invalid (t : Option (List Char)) (pre : List (List Char))
    {bad : List Char} (post : List (List Char))
    (h : SinglePathComponent.new bad = none) :
    List.foldl safeStep t (pre ++ bad :: post) = none := by
  rw [List.foldl_append, List.foldl_cons,
    safeStep_none_of_invalid _ h, foldl_safeStep_none]

/-- Folding over all-valid parts from any accumulator succeeds and appends the
parts' components in order. -/
theorem foldl_safeStep_valid {parts : List (List Char)}
    (h : ∀ p ∈ parts, (SinglePathComponent.new p).isSome) (acc : List Char) :
    ∃ r, List.foldl safeStep (some acc) parts = some r ∧
      components r = components acc ++ (parts.map components).flatten := by
  induction parts generalizing acc with
  | nil => exact ⟨acc, rfl, by simp⟩
  | cons p l ih =>
    obtain ⟨c, hc⟩ := Option.isSome_iff_exists.mp (h p (by simp))
    obtain ⟨hcp, x, hx⟩ := new_some_elim hc
    have step_eq : safeStep (some acc) p = some (push acc p) := by
      simp [safeStep, hc, hcp, pushComponent]
    obtain ⟨r, hr, hcomp⟩ := ih (fun q hq => h q (List.mem_cons_of_mem _ hq)) (push acc p)
    refine ⟨r, ?_, ?_⟩
    · rw [List.foldl_cons, step_eq]
      exact hr
    · rw [hcomp, components_push acc hx]
      simp [List.append_assoc]

/-- Folding valid rootless parts preserves rootlessness of the accumulator. -/
theorem foldl_safeStep_hasRoot {parts : List (List Char)} {r : List Char}
    (acc : List Char) (h1 : hasRoot acc = false)
    (h : List.foldl safeStep (some acc) parts = some r) :
    hasRoot r = false := by
  induction parts generalizing acc with
  | nil =>
    simp only [List.foldl_nil, Option.some.injEq] at h
    exact h ▸ h1
  | cons p l ih =>
    rw [List.foldl_cons] at h
    rcases hc : SinglePathComponent.new p with _ | c
    · rw [safeStep_none_of_invalid _ hc, foldl_safeStep_none] at h
      exact absurd h (by simp)
    · obtain ⟨hcp, x, hx⟩ := new_some_elim hc
      have step_eq : safeStep (some acc) p = some (push acc p) := by
        simp [safeStep, hc, hcp, pushComponent]
      rw [step_eq] at h
      have hpr : hasRoot p = false := (components_single_normal hx).1
      exact ih (push acc p) (hasRoot_push acc h1 hpr) h

theorem splitSep_no_sep {s : List Char} (h : '/' ∉ s) : splitSep s = [s] := by
  induction s with
  | nil => rfl
  | cons c rest ih =>
    have hc : ¬(c = '/') := fun e => h (e ▸ List.mem_cons_self c rest)
    have hr : splitSep rest = [rest] := ih (fun m => h (List.mem_cons_of_mem c m))
    simp [splitSep, hc, hr]

theorem with_sanitise_eq_ok {san : List Char → List Char} {s : List Char}
    {c : SinglePathComponent} (h : SinglePathComponent.new (san s) = some c) :
    with_sanitise san s = Except.ok c := by
  unfold with_sanitise
  rw [h]

theorem with_sanitise_eq_error {san : List Char → List Char} {s : List Char}
    (h : SinglePathComponent.new (san s) = none) :
    with_sanitise san s = Except.error (sanitiseFaultMsg s) := by
  unfold with_sanitise
  rw [h]

theorem with_sanitise_ok_elim {san : List Char → List Char} {s : List Char}
    {c : SinglePathComponent} (h : with_sanitise san s = Except.ok c) :
    SinglePathComponent.new (san s) = some c := by
  unfold with_sanitise at h
  rcases hn : SinglePathComponent.new (san s) with _ | c'
  · rw [hn] at h
    exact absurd h (by simp)
  · rw [hn] at h
    simp only [Except.ok.injEq] at h
    rw [h]

/-! ### Checks of the embedding against the crate's doctests -/
example : (SinglePathComponent.new "foo".toList).isSome := by decide
example : (SinglePathComponent.new "bar.txt".toList).isSome := by decide
example : SinglePathComponent.new "/etc/shadow".toList = none := by decide
example : SinglePathComponent.new "foo/".toList = some ⟨"foo/".toList⟩ := by decide
example : pathbuf_safe ["tmp".toList, "foo.txt".toList] = some "tmp/foo.txt".toList := by decide
example : pathbuf_safe ["tmp".toList, "/etc/shadow".toList] = none := by decide
example : pathbuf_safe [] = some [] := by decide
example : pathbuf_safe_allow "/var/tmp".toList ["foo.txt".toList] =
    some "/var/tmp/foo.txt".toList := by decide
example : pathbuf_safe_allow "/var/tmp".toList ["../etc/passwd".toList] = none := by decide
example : components "./foo".toList = [Component.curDir, Component.normal "foo".toList] := by
  decide
example : components "/.".toList = [Component.rootDir] := by decide
example : components "a/./b//".toList =
    [Component.normal ['a'], Component.normal ['b']] := by decide

/-! ### Claim theorems -/

/-- C1: for every ordered sequence of parts each of which individually passes
the component validator (`SinglePathComponent::new`), the default mode of
`pathbuf_safe!` returns a present path whose component decomposition is the
concatenation, in left-to-right input order, of each part's (single normal)
component decomposition. -/
theorem safe_join_all_valid (parts : List (List Char))
    (h : ∀ p ∈ parts, (SinglePathComponent.new p).isSome) :
    ∃ path, pathbuf_safe parts = some path ∧
      components path = (parts.map components).flatten := by
  obtain ⟨r, hr, hcomp⟩ := foldl_safeStep_valid h []
  exact ⟨r, hr, by simpa [components_nil] using hcomp⟩

theorem safe_join_all_valid_witness :
    ∃ path, pathbuf_safe ["tmp".toList, "foo.txt".toList] = some path ∧
      components path = (["tmp".toList, "foo.txt".toList].map components).flatten :=
  safe_join_all_valid ["tmp".toList, "foo.txt".toList] (by decide)

/-- C2: a sequence containing an invalid part makes the default mode of
`pathbuf_safe!` absent, wherever the invalid part sits and whatever valid or
invalid parts surround it; no partial path is returned. -/
theorem safe_join_invalid_absent (pre : List (List Char)) (bad : List Char)
    (post : List (List Char)) (h : SinglePathComponent.new bad = none) :
    pathbuf_safe (pre ++ bad :: post) = none :=
  foldl_safeStep_invalid (some []) pre post h

theorem safe_join_invalid_absent_witness :
    pathbuf_safe (["tmp".toList] ++ "/etc/shadow".toList :: ["ok".toList]) = none :=
  safe_join_invalid_absent ["tmp".toList] "/etc/shadow".toList ["ok".toList] (by decide)

/-- C3 counterexample: the text `foo/` contains a path separator, yet
`SinglePathComponent::new` accepts it, because it still decomposes to the
single normal component `foo`. -/
theorem validate_separator_counterexample :
    '/' ∈ "foo/".toList ∧
      SinglePathComponent.new "foo/".toList = some ⟨"foo/".toList⟩ := by
  decide

/-- C3 (amended): validation is absent for every text that is empty, equal to
`.` or `..`, rooted, or whose decomposition has two or more components or a
current-directory or parent-directory component; text containing a separator
can still be accepted when it decomposes to a single normal component (for
example a trailing separator).  Any such invalid text also aborts a safe
join, wherever it appears. -/
theorem validate_absent_amended (s : List Char)
    (h : s = [] ∨ s = ['.'] ∨ s = ['.', '.'] ∨ hasRoot s = true ∨
      2 ≤ (components s).length ∨ Component.curDir ∈ components s ∨
      Component.parentDir ∈ components s) :
    SinglePathComponent.new s = none ∧
      ∀ pre post, pathbuf_safe (pre ++ s :: post) = none := by
  have hnone : SinglePathComponent.new s = none := by
    rw [new_eq_none_iff]
    intro x hx
    rcases h with h | h | h | h | h | h | h
    · subst h
      rw [components_nil] at hx
      exact absurd hx (by simp)
    · subst h
      rw [show components ['.'] = [Component.curDir] from by decide] at hx
      exact absurd hx (by simp)
    · subst h
      rw [show components ['.', '.'] = [Component.parentDir] from by decide] at hx
      exact absurd hx (by simp)
    · rw [(components_single_normal hx).1] at h
      exact absurd h (by simp)
    · rw [hx] at h
      exact absurd h (by simp)
    · rw [hx] at h
      exact absurd h (by simp)
    · rw [hx] at h
      exact absurd h (by simp)
  exact ⟨hnone, fun pre post => foldl_safeStep_invalid (some []) pre post hnone⟩

theorem validate_absent_amended_witness :
    SinglePathComponent.new ['.', '.'] = none ∧
      pathbuf_safe (["a".toList] ++ ['.', '.'] :: ["b".toList]) = none :=
  ⟨(validate_absent_amended ['.', '.'] (Or.inr (Or.inr (Or.inl rfl)))).1,
   (validate_absent_amended ['.', '.'] (Or.inr (Or.inr (Or.inl rfl)))).2
     ["a".toList] ["b".toList]⟩

/-- C4: every non-empty text with no separator that is not `.` or `..`
validates to a present component wrapping exactly that text. -/
theorem validate_normal_present (s : List Char) (h1 : s ≠ []) (h2 : '/' ∉ s)
    (h3 : s ≠ ['.']) (h4 : s ≠ ['.', '.']) :
    SinglePathComponent.new s = some ⟨s⟩ := by
  have hsplit : splitSep s = [s] := splitSep_no_sep h2
  have hroot : hasRoot s = false := by
    cases s with
    | nil => rfl
    | cons a s' =>
      have ha : a ≠ '/' := fun e => h2 (e ▸ List.mem_cons_self a s')
      simp [hasRoot, ha]
  have hcur : includeCurDir s = false := by
    match s with
    | [] => rfl
    | [c] =>
      have hc : c ≠ '.' := fun e => h3 (by rw [e])
      simp [includeCurDir, hc]
    | c :: d :: rest =>
      have hd : d ≠ '/' := fun e => h2 (e ▸ by simp)
      simp [includeCurDir, hd]
  have hpiece : pieceComps s = [Component.normal s] := by
    unfold pieceComps
    rw [if_neg (by simp [h1, h3]), if_neg h4]
  have hx : components s = [Component.normal s] := by
    simp [components, hroot, hcur, hsplit, piecesToComps, hpiece]
  exact new_eq_some_of_valid hx

theorem validate_normal_present_witness :
    SinglePathComponent.new "foo.txt".toList = some ⟨"foo.txt".toList⟩ :=
  validate_normal_present "foo.txt".toList (by decide) (by decide) (by decide) (by decide)

/-- C5: every `SinglePathComponent` obtainable through the public interface —
the validating constructor `new` or `with_sanitise` — satisfies the invariant
that its wrapped path decomposes to exactly one normal component. -/
theorem single_component_invariant :
    (∀ s c, SinglePathComponent.new s = some c →
      ∃ x, components c.path = [Component.normal x]) ∧
    (∀ san s c, with_sanitise san s = Except.ok c →
      ∃ x, components c.path = [Component.normal x]) := by
  constructor
  · intro s c h
    obtain ⟨hcp, x, hx⟩ := new_some_elim h
    exact ⟨x, by rw [hcp]; exact hx⟩
  · intro san s c h
    obtain ⟨hcp, x, hx⟩ := new_some_elim (with_sanitise_ok_elim h)
    exact ⟨x, by rw [hcp]; exact hx⟩

theorem single_component_invariant_witness :
    ∃ x, components (SinglePathComponent.mk "foo".toList).path = [Component.normal x] :=
  single_component_invariant.1 "foo".toList ⟨"foo".toList⟩ (by decide)

/-- C6: in the trusted-first `allow` mode the first part is pushed without
validation (its components, rooted or multiple as they may be, head the
result), every later part is validated and an invalid one makes the call
absent; concretely `allow "/var/tmp", "foo.txt"` gives `/var/tmp/foo.txt`
and `allow "/var/tmp", "../etc/passwd"` is absent. -/
theorem safe_join_allow_first :
    (∀ first parts, (∀ p ∈ parts, (SinglePathComponent.new p).isSome) →
      ∃ path, pathbuf_safe_allow first parts = some path ∧
        components path = components first ++ (parts.map components).flatten) ∧
    (∀ first pre bad post, SinglePathComponent.new bad = none →
      pathbuf_safe_allow first (pre ++ bad :: post) = none) ∧
    pathbuf_safe_allow "/var/tmp".toList ["foo.txt".toList] =
      some "/var/tmp/foo.txt".toList ∧
    pathbuf_safe_allow "/var/tmp".toList ["../etc/passwd".toList] = none := by
  refine ⟨?_, ?_, by decide, by decide⟩
  · intro first parts h
    obtain ⟨r, hr, hcomp⟩ := foldl_safeStep_valid h (push [] first)
    have hpf : push [] first = first := by
      unfold push
      simp
    rw [hpf] at hcomp
    exact ⟨r, hr, hcomp⟩
  · intro first pre bad post h
    exact foldl_safeStep_invalid (some (push [] first)) pre post h

theorem safe_join_allow_first_witness :
    (∃ path, pathbuf_safe_allow "/var/tmp".toList ["foo.txt".toList] = some path ∧
      components path = components "/var/tmp".toList ++
        (["foo.txt".toList].map components).flatten) ∧
    pathbuf_safe_allow "/var/tmp".toList (["x".toList] ++ "..".toList :: []) = none :=
  ⟨safe_join_allow_first.1 "/var/tmp".toList ["foo.txt".toList] (by decide),
   safe_join_allow_first.2.1 "/var/tmp".toList ["x".toList] "..".toList [] (by decide)⟩

/-- C7: the empty part sequence in default mode yields a present, empty
path, not an absent result. -/
theorem safe_join_empty : pathbuf_safe [] = some [] := rfl

/-- C8: re-validating the underlying path of a successfully validated
component yields the same component, present. -/
theorem validate_idempotent (s : List Char) (c : SinglePathComponent)
    (h : SinglePathComponent.new s = some c) :
    SinglePathComponent.new c.path = some c := by
  obtain ⟨hcp, x, hx⟩ := new_some_elim h
  subst hcp
  exact new_eq_some_of_valid hx

theorem validate_idempotent_witness :
    SinglePathComponent.new (SinglePathComponent.mk "foo".toList).path =
      some ⟨"foo".toList⟩ :=
  validate_idempotent "foo".toList ⟨"foo".toList⟩ (by decide)

/-- C9: sanitise-then-validate, for every sanitiser and every input, either
returns a present valid component or halts with the descriptive fatal fault;
the fault is never downgraded to an absent result (the return type has no
absent case at all). -/
theorem sanitise_never_absent (san : List Char → List Char) (s : List Char) :
    ((∃ c, with_sanitise san s = Except.ok c ∧ c.is_valid = true) ∨
      with_sanitise san s = Except.error (sanitiseFaultMsg s)) ∧
    (∀ c, SinglePathComponent.new (san s) = some c →
      with_sanitise san s = Except.ok c) ∧
    (SinglePathComponent.new (san s) = none →
      with_sanitise san s = Except.error (sanitiseFaultMsg s)) := by
  refine ⟨?_, fun c hc => with_sanitise_eq_ok hc, fun hn => with_sanitise_eq_error hn⟩
  rcases hn : SinglePathComponent.new (san s) with _ | c
  · exact Or.inr (with_sanitise_eq_error hn)
  · refine Or.inl ⟨c, with_sanitise_eq_ok hn, ?_⟩
    obtain ⟨hcp, x, hx⟩ := new_some_elim hn
    rw [hcp]
    exact (is_valid_iff _).mpr ⟨x, hx⟩

theorem sanitise_never_absent_witness :
    ((∃ c, with_sanitise (fun _ => ['x']) ['/', 'a'] = Except.ok c ∧
        c.is_valid = true) ∨
      with_sanitise (fun _ => ['x']) ['/', 'a'] =
        Except.error (sanitiseFaultMsg ['/', 'a'])) ∧
    with_sanitise (fun t => t) "/etc".toList =
      Except.error (sanitiseFaultMsg "/etc".toList) :=
  ⟨(sanitise_never_absent (fun _ => ['x']) ['/', 'a']).1,
   (sanitise_never_absent (fun t => t) "/etc".toList).2.2 (by decide)⟩

/-- C10: whenever the default mode of `pathbuf_safe!` returns a present
path, that path is relative — it has no root, since every appended part is a
validated rootless single component and `push` never resets the buffer for
such a part. -/
theorem safe_join_relative (parts : List (List Char)) (path : List Char)
    (h : pathbuf_safe parts = some path) : hasRoot path = false :=
  foldl_safeStep_hasRoot [] rfl h

theorem safe_join_relative_witness : hasRoot ['a'] = false :=
  safe_join_relative [['a']] ['a'] (by decide)

end Pathbuf
